import Mathlib

/-!
Shallow embedding of the expression parser (`src/parser.rs`) and the AST
evaluator (`src/repr.rs`) of the Martomate/calculator repository.

Modelling conventions:
* A Rust `&str` is a `List Char` (Unicode scalar values).  Byte-index slicing
  in the source is modelled where it matters: `Parser::next` slices
  `&self.0[1..]`, which panics in Rust when the first character occupies more
  than one UTF-8 byte; this is the only possible panic site in the parser.
* Rust panics are an explicit outcome (`Ret.panicked`).  The mutually
  recursive parser functions take a fuel argument; `Ret.outOfFuel` is an
  artefact of the embedding and is distinct from a panic.
* Rust `f64` is modelled exactly: NaN, signed infinities, and finite values
  as a sign bit plus a nonnegative rational magnitude (so the two IEEE-754
  signed zeros are distinguished).  Rounding and overflow of finite results
  are not modelled; every value occurring in this development is exact.
* The regex `^-?\d+(\.\d+)?` used by `Parser::float` is Unicode-aware: the
  regex crate's `\d` is the Unicode decimal-digit class `\p{Nd}`, embedded
  here as the table `ndRanges`.  The `str::parse::<f64>` of the matched text
  accepts only ASCII digits, so a match containing a non-ASCII decimal digit
  makes `Parser::float` return `None`; this path is modelled faithfully.
* The `Vec<Expr>` of child operands inside an `Expr::Op` node is modelled by
  the mutually inductive `ExprList` (isomorphic to `List Expr`), so that
  recursion over trees is structural and evaluates inside the kernel.
-/

attribute [local semireducible] Rat.add Rat.mul Rat.inv Rat.sub Rat.ofScientific

namespace Calculator

/-- Outcome of running an embedded piece of Rust code: `panicked` is a Rust
panic, `outOfFuel` is an artefact of the fuel-based embedding of the
mutually recursive parser functions, and `ret a` is a normal return. -/
inductive Ret (α : Type) where
  | panicked : Ret α
  | outOfFuel : Ret α
  | ret (a : α) : Ret α
deriving DecidableEq, Repr

/-- Rust `Result<α, String>`. -/
inductive Res (α : Type) where
  | err (e : String) : Res α
  | ok (a : α) : Res α
deriving DecidableEq, Repr

/-- Model of Rust `f64`: NaN, infinities with a sign, and finite values as a
sign bit (`true` means negative) plus a nonnegative rational magnitude, so
that `fin false 0` is `+0.0` and `fin true 0` is `-0.0`. -/
inductive F64 where
  | nan : F64
  | inf (neg : Bool) : F64
  | fin (neg : Bool) (mag : ℚ) : F64
deriving DecidableEq, Repr

namespace F64

/-- The signed rational value of a finite `F64`. -/
def val (neg : Bool) (mag : ℚ) : ℚ := if neg then -mag else mag

/-- IEEE-754 negation: flips the sign bit; the negation of NaN stays NaN. -/
def neg : F64 → F64
  | nan => nan
  | inf s => inf (!s)
  | fin s m => fin (!s) m

/-- IEEE-754 addition (exact on finite values).  A finite sum that is zero is
`-0.0` exactly when both operands were negatively signed, matching
round-to-nearest semantics. -/
def add : F64 → F64 → F64
  | nan, _ => nan
  | _, nan => nan
  | inf s, inf t => if s = t then inf s else nan
  | inf s, fin _ _ => inf s
  | fin _ _, inf t => inf t
  | fin s a, fin t b =>
    let x := val s a + val t b
    if x = 0 then fin (s && t) 0 else fin (decide (x < 0)) |x|

/-- IEEE-754 subtraction: `x - y` is exactly `x + (-y)`. -/
def sub (a b : F64) : F64 := add a (neg b)

/-- IEEE-754 multiplication (exact on finite values); an infinity times a
zero is NaN and the result sign is the xor of the operand signs. -/
def mul : F64 → F64 → F64
  | nan, _ => nan
  | _, nan => nan
  | inf s, inf t => inf (xor s t)
  | inf s, fin t m => if m = 0 then nan else inf (xor s t)
  | fin s m, inf t => if m = 0 then nan else inf (xor s t)
  | fin s a, fin t b => fin (xor s t) (a * b)

/-- IEEE-754 division (exact on finite values): an infinity divided by an
infinity is NaN, `0` divided by `0` is NaN, a nonzero finite value divided
by a (signed) zero is a signed infinity, and a finite value divided by an
infinity is a signed zero; result signs are the xor of the operand signs. -/
def div : F64 → F64 → F64
  | nan, _ => nan
  | _, nan => nan
  | inf _, inf _ => nan
  | inf s, fin t _ => inf (xor s t)
  | fin s _, inf t => fin (xor s t) 0
  | fin s a, fin t b =>
    if b = 0 then (if a = 0 then nan else inf (xor s t))
    else fin (xor s t) (a / b)

end F64

/-- `Operator` from src/repr.rs. -/
inductive Operator where
  | Add : Operator
  | Sub : Operator
  | Mul : Operator
  | Div : Operator
deriving DecidableEq, Repr

/-- `Operator::precedence` from src/repr.rs (`u8` in the source; the values
are 1 and 2).  A lower value means the operator is applied sooner. -/
def Operator.precedence : Operator → Nat
  | .Add => 2
  | .Sub => 2
  | .Mul => 1
  | .Div => 1

/-- The binary float operation each operator denotes: the lambdas
`|a, b| a + b` and so on in the four arms of `Operation::evaluate`. -/
def Operator.apply : Operator → F64 → F64 → F64
  | .Add => F64.add
  | .Sub => F64.sub
  | .Mul => F64.mul
  | .Div => F64.div

mutual

/-- `Expr` from src/repr.rs, with the `Operation` struct of the `Op` variant
inlined as an operator together with its list of child operands. -/
inductive Expr where
  | Float (f : F64) : Expr
  | Op (op : Operator) (params : ExprList) : Expr
deriving Repr

/-- The `Vec<Expr>` of child operands (`Operation::params`). -/
inductive ExprList where
  | nil : ExprList
  | cons (head : Expr) (tail : ExprList) : ExprList
deriving Repr

end

/-- Length of a parameter list. -/
def ExprList.length : ExprList → Nat
  | .nil => 0
  | .cons _ t => t.length + 1

/-- `Operation::new(op, [a, b])` followed by `.into()`: the only way
`Parser::expr` builds an operator node, always with exactly two children. -/
def Operation.new (op : Operator) (a b : Expr) : Expr :=
  .Op op (.cons a (.cons b .nil))

mutual

/-- Boolean equality on `Expr` (the derived `PartialEq` of the source). -/
def Expr.beq : Expr → Expr → Bool
  | .Float x, .Float y => decide (x = y)
  | .Op op1 ps1, .Op op2 ps2 => decide (op1 = op2) && ExprList.beq ps1 ps2
  | _, _ => false
termination_by structural a _ => a

/-- Pointwise `Expr.beq` on parameter lists. -/
def ExprList.beq : ExprList → ExprList → Bool
  | .nil, .nil => true
  | .cons a as2, .cons b bs2 => Expr.beq a b && ExprList.beq as2 bs2
  | _, _ => false
termination_by structural a _ => a

end

mutual

theorem Expr.beq_iff : ∀ a b : Expr, (Expr.beq a b = true) ↔ a = b
  | .Float x, .Float y => by simp [Expr.beq]
  | .Float _, .Op _ _ => by simp [Expr.beq]
  | .Op _ _, .Float _ => by simp [Expr.beq]
  | .Op op1 ps1, .Op op2 ps2 => by
    simp [Expr.beq, ExprList.beqs_iff ps1 ps2]

theorem ExprList.beqs_iff : ∀ as2 bs2 : ExprList, (ExprList.beq as2 bs2 = true) ↔ as2 = bs2
  | .nil, .nil => by simp [ExprList.beq]
  | .nil, .cons _ _ => by simp [ExprList.beq]
  | .cons _ _, .nil => by simp [ExprList.beq]
  | .cons a as2, .cons b bs2 => by
    simp [ExprList.beq, Expr.beq_iff a b, ExprList.beqs_iff as2 bs2]

end

instance : DecidableEq Expr := fun a b => decidable_of_iff _ (Expr.beq_iff a b)

instance : DecidableEq ExprList := fun a b => decidable_of_iff _ (ExprList.beqs_iff a b)

/-- Rust `Iterator::reduce` followed by `.unwrap()`, as used in
`Operation::evaluate`: panics on an empty parameter list, otherwise folds
pairwise left-to-right. -/
def reduceF64 (f : F64 → F64 → F64) : List F64 → Ret F64
  | [] => .panicked
  | x :: xs => .ret (xs.foldl f x)

mutual

/-- `Expr::evaluate` together with `Operation::evaluate` from src/repr.rs:
a `Float` leaf returns its value; an `Op` node evaluates its parameters
left-to-right (propagating the first error) and reduces them with the
operator, `.unwrap()`-ing the result of `reduce`. -/
def Expr.evaluate : Expr → Ret (Res F64)
  | .Float f => .ret (.ok f)
  | .Op op params =>
    match evaluate_params params with
    | .panicked => .panicked
    | .outOfFuel => .outOfFuel
    | .ret (.err e) => .ret (.err e)
    | .ret (.ok vs) =>
      match reduceF64 op.apply vs with
      | .panicked => .panicked
      | .outOfFuel => .outOfFuel
      | .ret v => .ret (.ok v)
termination_by structural e => e

/-- `Operation::evaluate_params` from src/repr.rs: evaluates the parameters
in order, stopping at the first error. -/
def evaluate_params : ExprList → Ret (Res (List F64))
  | .nil => .ret (.ok [])
  | .cons p ps =>
    match p.evaluate with
    | .panicked => .panicked
    | .outOfFuel => .outOfFuel
    | .ret (.err e) => .ret (.err e)
    | .ret (.ok v) =>
      match evaluate_params ps with
      | .panicked => .panicked
      | .outOfFuel => .outOfFuel
      | .ret (.err e) => .ret (.err e)
      | .ret (.ok vs) => .ret (.ok (v :: vs))
termination_by structural ps => ps

end

/-- `Parser::consume` from src/parser.rs: `str::strip_prefix` for a single
expected character. -/
def consume (c : Char) (s : List Char) : Option (List Char) :=
  match s with
  | c2 :: rest => if c2 = c then some rest else none
  | [] => none

/-- `Parser::next` from src/parser.rs.  The source reads the first character
with `chars().next()` but advances with the byte slice `&self.0[1..]`, which
panics when the first character occupies more than one UTF-8 byte (byte
index 1 is then not a character boundary). -/
def pnext (s : List Char) : Ret (Option (Char × List Char)) :=
  match s with
  | [] => .ret none
  | c :: rest => if c.utf8Size = 1 then .ret (some (c, rest)) else .panicked

/-- `Parser::spaces` from src/parser.rs: recursively consume leading ASCII
space characters. -/
def spaces : List Char → List Char
  | c :: rest => if c = ' ' then spaces rest else c :: rest
  | [] => []

/-- The numeric value of a list of ASCII digits, most significant first. -/
def digitsVal (ds : List Char) : Nat := ds.foldl (fun n c => 10 * n + (c.toNat - 48)) 0

/-- The exact rational value of a numeric literal with integer digits `ip`
and fractional digits `fp` (the `str::parse::<f64>` step of
`Parser::float`, without rounding). -/
def litVal (ip fp : List Char) : ℚ :=
  (digitsVal ip : ℚ) + (digitsVal fp : ℚ) / (10 : ℚ) ^ fp.length

/-- The Unicode decimal-digit class `\p{Nd}`, which the regex crate uses
for `\d`: the `Nd` ranges of the Unicode character database (version
15.1.0).  The source does not pin the regex crate's UCD revision; no
statement below depends on the handful of codepoints that differ between
recent Unicode versions (the ASCII digits and every character used in the
theorems are `Nd` in all of them). -/
def ndRanges : List (Nat × Nat) :=
  [(0x30, 0x39), (0x660, 0x669), (0x6F0, 0x6F9), (0x7C0, 0x7C9), (0x966, 0x96F),
   (0x9E6, 0x9EF), (0xA66, 0xA6F), (0xAE6, 0xAEF), (0xB66, 0xB6F), (0xBE6, 0xBEF),
   (0xC66, 0xC6F), (0xCE6, 0xCEF), (0xD66, 0xD6F), (0xDE6, 0xDEF), (0xE50, 0xE59),
   (0xED0, 0xED9), (0xF20, 0xF29), (0x1040, 0x1049), (0x1090, 0x1099), (0x17E0, 0x17E9),
   (0x1810, 0x1819), (0x1946, 0x194F), (0x19D0, 0x19D9), (0x1A80, 0x1A89), (0x1A90, 0x1A99),
   (0x1B50, 0x1B59), (0x1BB0, 0x1BB9), (0x1C40, 0x1C49), (0x1C50, 0x1C59), (0xA620, 0xA629),
   (0xA8D0, 0xA8D9), (0xA900, 0xA909), (0xA9D0, 0xA9D9), (0xA9F0, 0xA9F9), (0xAA50, 0xAA59),
   (0xABF0, 0xABF9), (0xFF10, 0xFF19), (0x104A0, 0x104A9), (0x10D30, 0x10D39),
   (0x11066, 0x1106F), (0x110F0, 0x110F9), (0x11136, 0x1113F), (0x111D0, 0x111D9),
   (0x112F0, 0x112F9), (0x11450, 0x11459), (0x114D0, 0x114D9), (0x11650, 0x11659),
   (0x116C0, 0x116C9), (0x11730, 0x11739), (0x118E0, 0x118E9), (0x11950, 0x11959),
   (0x11C50, 0x11C59), (0x11D50, 0x11D59), (0x11DA0, 0x11DA9), (0x11F50, 0x11F59),
   (0x16A60, 0x16A69), (0x16AC0, 0x16AC9), (0x16B50, 0x16B59), (0x1D7CE, 0x1D7FF),
   (0x1E140, 0x1E149), (0x1E2F0, 0x1E2F9), (0x1E4F0, 0x1E4F9), (0x1E950, 0x1E959),
   (0x1FBF0, 0x1FBF9)]

/-- Membership in `\p{Nd}`: the digit class `\d` of the source's regex. -/
def isNd (c : Char) : Bool :=
  ndRanges.any fun r => decide (r.1 ≤ c.toNat) && decide (c.toNat ≤ r.2)

/-- The unsigned part `\d+(\.\d+)?` of the regex of `Parser::float` at the
start of `s1`, followed by the `str::parse::<f64>` of the whole match: the
greedy digit runs use the Unicode class `\d` (`isNd`); the fraction group
only matches when a `.` followed by at least one digit is present (otherwise
the `.` is left unconsumed).  `parse::<f64>` accepts only ASCII digits, so a
match containing any non-ASCII decimal digit fails to parse and the result
is `None`; on an all-ASCII match the result is the literal's (here exact)
value with the cursor advanced past the match. -/
def floatCore (s1 : List Char) : Option (ℚ × List Char) :=
  let ip := s1.takeWhile isNd
  if ip = [] then none
  else
    match s1.drop ip.length with
    | '.' :: s3 =>
      let fp := s3.takeWhile isNd
      if fp = [] then
        if ip.all Char.isDigit then some (litVal ip [], s1.drop ip.length) else none
      else
        if ip.all Char.isDigit && fp.all Char.isDigit then
          some (litVal ip fp, s3.drop fp.length)
        else none
    | _ => if ip.all Char.isDigit then some (litVal ip [], s1.drop ip.length) else none

/-- `Parser::float` from src/parser.rs: the leftmost match of the anchored
regex `^-?\d+(\.\d+)?` (an optional leading minus followed by the unsigned
part `floatCore`), parsed as a float, with the cursor advanced past the
match. -/
def float (s : List Char) : Option (F64 × List Char) :=
  match s with
  | '-' :: s1 => (floatCore s1).map fun vr => (F64.fin true vr.1, vr.2)
  | _ => (floatCore s).map fun vr => (F64.fin false vr.1, vr.2)

/-- The operator-character table in the `while let` loop of `Parser::expr`;
any other character makes the closure return an `unsupported operator`
error, which merely stops the loop. -/
def charToOp : Char → Option Operator
  | '+' => some .Add
  | '-' => some .Sub
  | '*' => some .Mul
  | '/' => some .Div
  | _ => none

/-- `ops.iter().map(|o| o.0.precedence()).min().unwrap()` from the reduction
loop of `Parser::expr`; only ever reached on a nonempty list. -/
def minPrec : List (Operator × Expr) → Nat
  | [] => 0
  | o :: rest => (rest.map fun x => x.1.precedence).foldl min o.1.precedence

/-- The `idx != 0` branch of the reduction loop of `Parser::expr`:
`ops[idx-1].1 = Operation::new(op, [ops[idx-1].1.clone(), b]).into()`
followed by `ops.remove(idx)`. -/
def applyAt : List (Operator × Expr) → Nat → List (Operator × Expr)
  | (opA, a) :: (opB, b) :: rest, 1 => (opA, Operation.new opB a b) :: rest
  | o :: rest, n + 2 => o :: applyAt rest (n + 1)
  | ops, _ => ops

/-- The reduction loop at the end of `Parser::expr`: repeatedly find the
first operator of minimal precedence value and combine it with its left
neighbour (the accumulator `a` when it is first).  The loop removes one
element of `ops` per iteration, so fuel `ops.length` is exact; the fuel-zero
fallback is unreachable. -/
def reduceOps : Nat → Expr → List (Operator × Expr) → Expr
  | _, a, [] => a
  | 0, a, _ :: _ => a
  | n + 1, a, o0 :: rest =>
    let ops := o0 :: rest
    let idx := ops.findIdx fun o => o.1.precedence == minPrec ops
    if idx = 0 then reduceOps n (Operation.new o0.1 a o0.2) rest
    else reduceOps n a (applyAt ops idx)

mutual

/-- `Parser::term` from src/parser.rs: on `(` parse a full expression and
require a closing `)` (any expression error is converted to `None` by
`.ok()?`); on any other first character run `Parser::float` on the whole
remaining input. -/
def term : Nat → List Char → Ret (Option (Expr × List Char))
  | 0, _ => .outOfFuel
  | fuel + 1, s =>
    match pnext s with
    | .panicked => .panicked
    | .outOfFuel => .outOfFuel
    | .ret none => .ret none
    | .ret (some (c, p)) =>
      if c = '(' then
        match expr fuel p with
        | .panicked => .panicked
        | .outOfFuel => .outOfFuel
        | .ret (.err _) => .ret none
        | .ret (.ok (e, p1)) =>
          match consume ')' p1 with
          | none => .ret none
          | some p2 => .ret (some (e, p2))
      else
        match float s with
        | none => .ret none
        | some (f, p1) => .ret (some (.Float f, p1))
termination_by structural fuel _ => fuel

/-- `Parser::expr` from src/parser.rs: skip spaces, parse the initial term
(failure is the `invalid term` error), skip spaces, run the operator
collection loop, and reduce the collected operator list. -/
def expr : Nat → List Char → Ret (Res (Expr × List Char))
  | 0, _ => .outOfFuel
  | fuel + 1, s =>
    match term fuel (spaces s) with
    | .panicked => .panicked
    | .outOfFuel => .outOfFuel
    | .ret none => .ret (.err "invalid term")
    | .ret (some (a, p1)) =>
      match exprLoop fuel (spaces p1) [] with
      | .panicked => .panicked
      | .outOfFuel => .outOfFuel
      | .ret (pEnd, ops) => .ret (.ok (reduceOps ops.length a ops, pEnd))
termination_by structural fuel _ => fuel

/-- The `while let` loop of `Parser::expr`: each iteration skips spaces,
reads one character, maps it to an operator, skips spaces and parses a term.
Any failure inside the iteration (end of input, unsupported operator,
invalid term) makes the closure return an error, which stops the loop
without consuming anything; only a panic propagates. -/
def exprLoop : Nat → List Char → List (Operator × Expr) → Ret (List Char × List (Operator × Expr))
  | 0, _, _ => .outOfFuel
  | fuel + 1, p, ops =>
    match pnext (spaces p) with
    | .panicked => .panicked
    | .outOfFuel => .outOfFuel
    | .ret none => .ret (p, ops)
    | .ret (some (c, p2)) =>
      match charToOp c with
      | none => .ret (p, ops)
      | some op =>
        match term fuel (spaces p2) with
        | .panicked => .panicked
        | .outOfFuel => .outOfFuel
        | .ret none => .ret (p, ops)
        | .ret (some (b, p4)) => exprLoop fuel p4 (ops ++ [(op, b)])
termination_by structural fuel _ _ => fuel

end

/-- One character of Rust `{:?}` (Debug) formatting of a string: quotes and
backslashes are escaped, as are the common control characters; all other
characters print as themselves (sufficient for every string occurring in
this development). -/
def escapeDebugChar (c : Char) : List Char :=
  if c = '"' then ['\\', '"']
  else if c = '\\' then ['\\', '\\']
  else if c = '\n' then ['\\', 'n']
  else if c = '\t' then ['\\', 't']
  else if c = '\r' then ['\\', 'r']
  else [c]

/-- Rust `{:?}` (Debug) formatting of a `&str`: the escaped contents wrapped
in double quotes. -/
def strDebug (s : List Char) : String :=
  String.mk ('"' :: (s.map escapeDebugChar).flatten ++ ['"'])

/-- The error message built by `parse_line` when input remains after the
expression (the typo `imput` is in the source). -/
def unconsumedMsg (p : List Char) : String :=
  "could not parse the end of the imput, namely: " ++ strDebug p

/-- `parse_line` from src/parser.rs: parse an expression, skip trailing
spaces, and fail if input remains.  The fuel `3 * (length + 1)` dominates
the recursion depth: every level of the mutual recursion either consumes at
least one character or moves to a function that does. -/
def parse_line (line : List Char) : Ret (Res Expr) :=
  match expr (3 * (line.length + 1)) line with
  | .panicked => .panicked
  | .outOfFuel => .outOfFuel
  | .ret (.err e) => .ret (.err e)
  | .ret (.ok (res, p)) =>
    if spaces p = [] then .ret (.ok res)
    else .ret (.err (unconsumedMsg (spaces p)))

/-- The composition used by the front end (src/main.rs, src/cli.rs):
`parse_line` followed by `Expr::evaluate`. -/
def parseEval (line : List Char) : Ret (Res F64) :=
  match parse_line line with
  | .panicked => .panicked
  | .outOfFuel => .outOfFuel
  | .ret (.err e) => .ret (.err e)
  | .ret (.ok e) => e.evaluate

/-! ### Parse-tree invariants -/

mutual

/-- Every operator node in the tree has at least two children. -/
def minArity2 : Expr → Bool
  | .Float _ => true
  | .Op _ ps => decide (2 ≤ ps.length) && minArity2List ps
termination_by structural e => e

/-- `minArity2` at every element of a parameter list. -/
def minArity2List : ExprList → Bool
  | .nil => true
  | .cons e es => minArity2 e && minArity2List es
termination_by structural ps => ps

end

/-- `minArity2` for the right-hand sides collected in the operator list of
`Parser::expr`. -/
def opsArity2 (ops : List (Operator × Expr)) : Bool :=
  ops.all fun o => minArity2 o.2

theorem minArity2_new {op : Operator} {a b : Expr}
    (ha : minArity2 a = true) (hb : minArity2 b = true) :
    minArity2 (Operation.new op a b) = true := by
  simp [Operation.new, minArity2, minArity2List, ExprList.length, ha, hb]

theorem opsArity2_applyAt : ∀ (ops : List (Operator × Expr)) (idx : Nat),
    opsArity2 ops = true → opsArity2 (applyAt ops idx) = true := by
  intro ops
  induction ops with
  | nil => intro idx h; simpa [applyAt] using h
  | cons o rest ih =>
    intro idx h
    match idx with
    | 0 => simpa [applyAt] using h
    | 1 =>
      match rest with
      | [] => simpa [applyAt] using h
      | (opB, b) :: rest2 =>
        obtain ⟨opA, a⟩ := o
        simp only [opsArity2, List.all_cons, Bool.and_eq_true] at h
        simp only [applyAt, opsArity2, List.all_cons, Bool.and_eq_true]
        exact ⟨minArity2_new h.1 h.2.1, h.2.2⟩
    | n + 2 =>
      simp only [opsArity2, List.all_cons, Bool.and_eq_true] at h
      simp only [applyAt, opsArity2, List.all_cons, Bool.and_eq_true]
      refine ⟨h.1, ?_⟩
      have := ih (n + 1) (by simpa [opsArity2] using h.2)
      simpa [opsArity2] using this

theorem minArity2_reduceOps : ∀ (n : Nat) (a : Expr) (ops : List (Operator × Expr)),
    minArity2 a = true → opsArity2 ops = true → minArity2 (reduceOps n a ops) = true := by
  intro n
  induction n with
  | zero =>
    intro a ops ha _
    cases ops <;> simpa [reduceOps] using ha
  | succ n ih =>
    intro a ops ha hops
    cases ops with
    | nil => simpa [reduceOps] using ha
    | cons o0 rest =>
      have hops2 := hops
      simp only [opsArity2, List.all_cons, Bool.and_eq_true] at hops2
      simp only [reduceOps]
      split
      · exact ih _ _ (minArity2_new ha hops2.1) (by simpa [opsArity2] using hops2.2)
      · exact ih _ _ ha (opsArity2_applyAt _ _ hops)

theorem parser_minArity2 : ∀ fuel : Nat,
    (∀ s e p, term fuel s = .ret (some (e, p)) → minArity2 e = true)
    ∧ (∀ s e p, expr fuel s = .ret (.ok (e, p)) → minArity2 e = true)
    ∧ (∀ p acc pE ops, exprLoop fuel p acc = .ret (pE, ops) →
        opsArity2 acc = true → opsArity2 ops = true) := by
  intro fuel
  induction fuel with
  | zero =>
    refine ⟨fun s e p h => ?_, fun s e p h => ?_, fun p acc pE ops h hacc => ?_⟩
    · simp [term] at h
    · simp [expr] at h
    · simp [exprLoop] at h
  | succ fuel ih =>
    obtain ⟨ihTerm, ihExpr, ihLoop⟩ := ih
    refine ⟨fun s e p h => ?_, fun s e p h => ?_, fun p acc pE ops h hacc => ?_⟩
    · simp only [term] at h
      split at h
      · exact Ret.noConfusion h
      · exact Ret.noConfusion h
      · simp at h
      · split at h
        · split at h
          · exact Ret.noConfusion h
          · exact Ret.noConfusion h
          · simp at h
          · rename_i heqExpr
            split at h
            · simp at h
            · simp at h
              obtain ⟨he, _⟩ := h
              exact he ▸ ihExpr _ _ _ heqExpr
        · split at h
          · simp at h
          · simp at h
            obtain ⟨he, _⟩ := h
            exact he ▸ rfl
    · simp only [expr] at h
      split at h
      · exact Ret.noConfusion h
      · exact Ret.noConfusion h
      · simp at h
      · rename_i heqTerm
        split at h
        · exact Ret.noConfusion h
        · exact Ret.noConfusion h
        · rename_i heqLoop
          simp at h
          obtain ⟨he, _⟩ := h
          exact he ▸ minArity2_reduceOps _ _ _ (ihTerm _ _ _ heqTerm)
            (ihLoop _ _ _ _ heqLoop rfl)
    · simp only [exprLoop] at h
      split at h
      · exact Ret.noConfusion h
      · exact Ret.noConfusion h
      · simp at h
        exact h.2 ▸ hacc
      · split at h
        · simp at h
          exact h.2 ▸ hacc
        · rename_i heqOp
          split at h
          · exact Ret.noConfusion h
          · exact Ret.noConfusion h
          · simp at h
            exact h.2 ▸ hacc
          · rename_i heqTerm
            refine ihLoop _ _ _ _ h ?_
            simp only [opsArity2, List.all_append, List.all_cons, List.all_nil,
              Bool.and_eq_true, Bool.and_true, and_true]
            exact ⟨by simpa [opsArity2] using hacc, ihTerm _ _ _ heqTerm⟩

mutual

theorem evaluate_total_of_minArity2 : ∀ e : Expr, minArity2 e = true →
    ∃ v, e.evaluate = Ret.ret (Res.ok v)
  | .Float f, _ => ⟨f, rfl⟩
  | .Op op ps, h => by
    simp only [minArity2, Bool.and_eq_true, decide_eq_true_eq] at h
    obtain ⟨vs, hvs, hlen⟩ := evaluate_params_total ps h.2
    have h2 : 2 ≤ vs.length := by omega
    match vs, h2 with
    | v :: vs2, _ =>
      exact ⟨vs2.foldl op.apply v, by simp [Expr.evaluate, hvs, reduceF64]⟩

theorem evaluate_params_total : ∀ ps : ExprList, minArity2List ps = true →
    ∃ vs, evaluate_params ps = Ret.ret (Res.ok vs) ∧ vs.length = ps.length
  | .nil, _ => ⟨[], rfl, rfl⟩
  | .cons p ps, h => by
    simp only [minArity2List, Bool.and_eq_true] at h
    obtain ⟨v, hv⟩ := evaluate_total_of_minArity2 p h.1
    obtain ⟨vs, hvs, hlen⟩ := evaluate_params_total ps h.2
    exact ⟨v :: vs, by simp [evaluate_params, hv, hvs], by simp [ExprList.length, hlen]⟩

end

/-- Every tree a successful `parse_line` returns satisfies `minArity2`. -/
theorem parsed_minArity2 {line : List Char} {e : Expr}
    (h : parse_line line = Ret.ret (Res.ok e)) : minArity2 e = true := by
  simp only [parse_line] at h
  split at h
  · exact Ret.noConfusion h
  · exact Ret.noConfusion h
  · simp at h
  · rename_i heqExpr
    split at h
    · simp at h
      exact h ▸ (parser_minArity2 _).2.1 _ _ _ heqExpr
    · simp at h

/-! ### Literal-token shape (for the read_float claim) -/

/-- The fraction part of a literal token: nothing when `fs` is empty,
otherwise a decimal point followed by the digits `fs`. -/
def dotRep (fs : List Char) : List Char := if fs = [] then [] else '.' :: fs

/-- The literal token with sign `sign`, integer digits `ds` and fraction
digits `fs`: the shape `-?\d+(\.\d+)?` of the claim. -/
def mkTok (sign : Bool) (ds fs : List Char) : List Char :=
  (cond sign ['-'] []) ++ ds ++ dotRep fs

/-- `ds` and `fs` make the claim's token with ASCII digits: at least one
integer digit, only ASCII digits — exactly the tokens whose text
`str::parse::<f64>` accepts. -/
def TokParts (ds fs : List Char) : Prop :=
  ds ≠ [] ∧ (∀ c ∈ ds, c.isDigit = true) ∧ (∀ c ∈ fs, c.isDigit = true)

/-- `ds` and `fs` make a token of the regex's shape: at least one integer
digit, all digits in the Unicode class `\p{Nd}`. -/
def NdParts (ds fs : List Char) : Prop :=
  ds ≠ [] ∧ (∀ c ∈ ds, isNd c = true) ∧ (∀ c ∈ fs, isNd c = true)

/-- An ASCII digit is none of the other characters the parser inspects. -/
theorem isDigit_ne_aux {c : Char} (h : c.isDigit = true) :
    c ≠ ' ' ∧ c ≠ '(' ∧ c ≠ '-' ∧ c ≠ '.' := by
  refine ⟨?_, ?_, ?_, ?_⟩ <;>
    (intro he; rw [he] at h; exact absurd h (by decide))

/-- An ASCII digit is in `\p{Nd}` (its first range). -/
theorem isNd_of_isDigit {c : Char} (h : c.isDigit = true) : isNd c = true := by
  simp only [Char.isDigit, Bool.and_eq_true, decide_eq_true_eq] at h
  have h1 : 48 ≤ c.toNat := h.1
  have h2 : c.toNat ≤ 57 := h.2
  simp only [isNd, ndRanges, List.any_cons, Bool.or_eq_true, Bool.and_eq_true,
    decide_eq_true_eq]
  exact Or.inl ⟨h1, h2⟩

theorem nd_prefix_takeWhile {s1 ds2 t2 : List Char}
    (hdig : ∀ c ∈ ds2, isNd c = true) (hs : s1 = ds2 ++ t2) :
    ds2 <+: s1.takeWhile isNd := by
  rw [hs, List.takeWhile_append_of_pos hdig]
  exact List.prefix_append _ _

theorem drop_takeWhile_of_append {p : Char → Bool} {l t : List Char}
    (h : l.takeWhile p ++ t = l) : l.drop (l.takeWhile p).length = t := by
  have h2 := congrArg (List.drop (l.takeWhile p).length) h
  rw [List.drop_left] at h2
  exact h2.symm

theorem takeWhile_split (p : Char → Bool) (s : List Char) :
    s = s.takeWhile p ++ s.drop (s.takeWhile p).length := by
  obtain ⟨t, ht⟩ := List.takeWhile_prefix (l := s) p
  rw [drop_takeWhile_of_append ht]
  exact ht.symm

/-- A token of the regex's shape read off `s1` either uses exactly the
maximal `\p{Nd}` run of `s1` (with the fraction and rest aligned after it),
or has no fraction part and integer digits inside the maximal run. -/
theorem tok_prefix_cases {s1 ds2 fs2 r2 : List Char}
    (hp : NdParts ds2 fs2) (hs2 : s1 = ds2 ++ (dotRep fs2 ++ r2)) :
    (ds2 = s1.takeWhile isNd
      ∧ dotRep fs2 ++ r2 = s1.drop (s1.takeWhile isNd).length)
    ∨ (fs2 = [] ∧ ds2.length ≤ (s1.takeWhile isNd).length) := by
  obtain ⟨hne, hdig, hfdig⟩ := hp
  have hpre : ds2 <+: s1.takeWhile isNd := nd_prefix_takeWhile hdig hs2
  have hsplit := takeWhile_split isNd s1
  obtain ⟨e, he⟩ := hpre
  cases e with
  | nil =>
    left
    have hde : ds2 = s1.takeWhile isNd := by simpa using he
    refine ⟨hde, ?_⟩
    have key : ds2 ++ (dotRep fs2 ++ r2)
        = ds2 ++ s1.drop (s1.takeWhile isNd).length := by
      rw [← hs2]
      conv_rhs => rw [hde]
      exact hsplit
    exact List.append_cancel_left key
  | cons c e2 =>
    right
    have hcdig : isNd c = true := by
      have hmem : c ∈ s1.takeWhile isNd := by
        rw [← he]; simp
      exact List.mem_takeWhile_imp hmem
    have hcancel : dotRep fs2 ++ r2
        = (c :: e2) ++ s1.drop (s1.takeWhile isNd).length := by
      have key : ds2 ++ (dotRep fs2 ++ r2)
          = ds2 ++ ((c :: e2) ++ s1.drop (s1.takeWhile isNd).length) := by
        rw [← hs2, ← List.append_assoc, he]
        exact hsplit
      exact List.append_cancel_left key
    by_cases hfs : fs2 = []
    · refine ⟨hfs, ?_⟩
      have hlen := congrArg List.length he
      simp at hlen
      omega
    · exfalso
      rw [dotRep, if_neg hfs] at hcancel
      rw [List.cons_append] at hcancel
      injection hcancel with hhd _
      rw [← hhd] at hcdig
      exact absurd hcdig (by decide)

/-- Soundness and maximality of `floatCore`: a successful match decomposes
the input as the longest `\p{Nd}`-shaped token followed by the rest, that
token has only ASCII digits (`parse::<f64>` succeeded), and the returned
value is the token's exact value. -/
theorem floatCore_some {s1 : List Char} {q : ℚ} {r : List Char}
    (h : floatCore s1 = some (q, r)) :
    ∃ ds fs, TokParts ds fs ∧ s1 = ds ++ (dotRep fs ++ r) ∧ q = litVal ds fs ∧
      ∀ ds2 fs2 r2, NdParts ds2 fs2 → s1 = ds2 ++ (dotRep fs2 ++ r2) →
        (ds2 ++ dotRep fs2).length ≤ (ds ++ dotRep fs).length := by
  have hsplit := takeWhile_split isNd s1
  simp only [floatCore] at h
  split at h
  · exact Option.noConfusion h
  · rename_i hipne
    split at h
    · rename_i s3 heq3
      split at h
      · rename_i hfpe
        split at h
        · rename_i hga
          have hgall : ∀ c ∈ s1.takeWhile isNd, c.isDigit = true := by
            intro c hc
            exact List.all_eq_true.mp hga c hc
          simp only [Option.some.injEq, Prod.mk.injEq] at h
          obtain ⟨hq, hr⟩ := h
          refine ⟨s1.takeWhile isNd, [], ⟨hipne, hgall, by simp⟩, ?_, hq.symm, ?_⟩
          · simpa [dotRep] using (hr ▸ hsplit)
          · intro ds2 fs2 r2 hp2 hs2
            rcases tok_prefix_cases hp2 hs2 with ⟨hde, hal⟩ | ⟨hfs, hle⟩
            · by_cases hfs2 : fs2 = []
              · simp [dotRep, hfs2, hde]
              · exfalso
                rw [dotRep, if_neg hfs2, heq3, List.cons_append] at hal
                injection hal with _ htl
                have hpre2 : fs2 <+: s3.takeWhile isNd :=
                  nd_prefix_takeWhile hp2.2.2 htl.symm
                rw [hfpe] at hpre2
                obtain ⟨ee, hee⟩ := hpre2
                simp at hee
                exact hfs2 hee.1
            · simp only [dotRep, if_pos hfs, List.append_nil]
              simp [List.length_append]
              omega
        · exact Option.noConfusion h
      · rename_i hfpne
        split at h
        · rename_i hgb
          simp only [Bool.and_eq_true] at hgb
          have hgalli : ∀ c ∈ s1.takeWhile isNd, c.isDigit = true := by
            intro c hc
            exact List.all_eq_true.mp hgb.1 c hc
          have hgallf : ∀ c ∈ s3.takeWhile isNd, c.isDigit = true := by
            intro c hc
            exact List.all_eq_true.mp hgb.2 c hc
          simp only [Option.some.injEq, Prod.mk.injEq] at h
          obtain ⟨hq, hr⟩ := h
          have hsplit3 := takeWhile_split isNd s3
          refine ⟨s1.takeWhile isNd, s3.takeWhile isNd,
            ⟨hipne, hgalli, hgallf⟩, ?_, hq.symm, ?_⟩
          · rw [dotRep, if_neg hfpne]
            calc s1 = s1.takeWhile isNd
                  ++ s1.drop (s1.takeWhile isNd).length := hsplit
              _ = s1.takeWhile isNd ++ ('.' :: s3) := by rw [heq3]
              _ = s1.takeWhile isNd ++ ('.' :: (s3.takeWhile isNd
                  ++ s3.drop (s3.takeWhile isNd).length)) := by
                    rw [← hsplit3]
              _ = s1.takeWhile isNd
                  ++ ('.' :: s3.takeWhile isNd ++ r) := by rw [hr]; simp
          · intro ds2 fs2 r2 hp2 hs2
            rcases tok_prefix_cases hp2 hs2 with ⟨hde, hal⟩ | ⟨hfs, hle⟩
            · by_cases hfs2 : fs2 = []
              · simp [dotRep, hfs2, hde, if_neg hfpne]
              · rw [dotRep, if_neg hfs2, heq3, List.cons_append] at hal
                injection hal with _ htl
                have hpre2 : fs2 <+: s3.takeWhile isNd :=
                  nd_prefix_takeWhile hp2.2.2 htl.symm
                have hle2 := hpre2.length_le
                rw [hde, dotRep, dotRep, if_neg hfs2, if_neg hfpne]
                simp only [List.length_append, List.length_cons]
                omega
            · simp [dotRep, hfs, if_neg hfpne]
              omega
        · exact Option.noConfusion h
    · rename_i hnodot
      split at h
      · rename_i hga
        have hgall : ∀ c ∈ s1.takeWhile isNd, c.isDigit = true := by
          intro c hc
          exact List.all_eq_true.mp hga c hc
        simp only [Option.some.injEq, Prod.mk.injEq] at h
        obtain ⟨hq, hr⟩ := h
        refine ⟨s1.takeWhile isNd, [], ⟨hipne, hgall, by simp⟩, ?_, hq.symm, ?_⟩
        · simpa [dotRep] using (hr ▸ hsplit)
        · intro ds2 fs2 r2 hp2 hs2
          rcases tok_prefix_cases hp2 hs2 with ⟨hde, hal⟩ | ⟨hfs, hle⟩
          · by_cases hfs2 : fs2 = []
            · simp [dotRep, hfs2, hde]
            · exfalso
              rw [dotRep, if_neg hfs2, List.cons_append] at hal
              exact hnodot _ hal.symm
          · simp [dotRep, hfs]
            omega
      · exact Option.noConfusion h

/-- When `floatCore` fails although the input starts with an ASCII-digit
token, the failure is the `parse::<f64>` path: the regex's match is a
`\p{Nd}`-shaped prefix that contains a non-ASCII decimal digit. -/
theorem floatCore_none_explained {s1 ds fs r : List Char} (hp : TokParts ds fs)
    (hs : s1 = ds ++ (dotRep fs ++ r)) (h : floatCore s1 = none) :
    ∃ ds2 fs2 r2, NdParts ds2 fs2 ∧ s1 = ds2 ++ (dotRep fs2 ++ r2)
      ∧ (ds2.all Char.isDigit && fs2.all Char.isDigit) = false := by
  have hsplit := takeWhile_split isNd s1
  have hipnd : ∀ c ∈ s1.takeWhile isNd, isNd c = true :=
    fun c hc => List.mem_takeWhile_imp hc
  obtain ⟨hne, hdig, _⟩ := hp
  have htwne : s1.takeWhile isNd ≠ [] := by
    cases ds with
    | nil => exact absurd rfl hne
    | cons d dst =>
      have hd : isNd d = true := isNd_of_isDigit (hdig d (by simp))
      rw [hs, List.cons_append, List.takeWhile_cons_of_pos hd]
      simp
  simp only [floatCore] at h
  rw [if_neg htwne] at h
  split at h
  · rename_i s3 heq3
    split at h
    · split at h
      · exact Option.noConfusion h
      · rename_i hga
        refine ⟨s1.takeWhile isNd, [], s1.drop (s1.takeWhile isNd).length,
          ⟨htwne, hipnd, by simp⟩, by simpa [dotRep] using hsplit, ?_⟩
        simp only [Bool.not_eq_true] at hga
        simp [hga]
    · rename_i hfpne
      split at h
      · exact Option.noConfusion h
      · rename_i hgb
        have hsplit3 := takeWhile_split isNd s3
        have hfpnd : ∀ c ∈ s3.takeWhile isNd, isNd c = true :=
          fun c hc => List.mem_takeWhile_imp hc
        refine ⟨s1.takeWhile isNd, s3.takeWhile isNd,
          s3.drop (s3.takeWhile isNd).length,
          ⟨htwne, hipnd, hfpnd⟩, ?_, ?_⟩
        · rw [dotRep, if_neg hfpne]
          calc s1 = s1.takeWhile isNd
                ++ s1.drop (s1.takeWhile isNd).length := hsplit
            _ = s1.takeWhile isNd ++ ('.' :: s3) := by rw [heq3]
            _ = s1.takeWhile isNd ++ ('.' :: (s3.takeWhile isNd
                ++ s3.drop (s3.takeWhile isNd).length)) := by rw [← hsplit3]
            _ = s1.takeWhile isNd ++ ('.' :: s3.takeWhile isNd
                ++ s3.drop (s3.takeWhile isNd).length) := by simp
        · simp only [Bool.not_eq_true] at hgb
          exact hgb
  · split at h
    · exact Option.noConfusion h
    · rename_i hga
      refine ⟨s1.takeWhile isNd, [], s1.drop (s1.takeWhile isNd).length,
        ⟨htwne, hipnd, by simp⟩, by simpa [dotRep] using hsplit, ?_⟩
      simp only [Bool.not_eq_true] at hga
      simp [hga]

theorem float_minus (s1 : List Char) :
    float ('-' :: s1) = (floatCore s1).map fun vr => (F64.fin true vr.1, vr.2) := rfl

theorem float_not_minus {c : Char} {rest : List Char} (hc : c ≠ '-') :
    float (c :: rest) = (floatCore (c :: rest)).map fun vr => (F64.fin false vr.1, vr.2) := by
  simp only [float]
  split
  · rename_i s1 heq
    injection heq with h1 _
    exact absurd h1 hc
  · rfl

/-- C9 counterexample: on `1٣` (the second character is U+0663, ARABIC-INDIC
DIGIT THREE, a Unicode decimal digit) the source regex matches `1٣`, the
`parse::<f64>` of that match fails, and `Parser::float` returns `None` —
although the input starts with the conforming prefix `1`.  So `read_float`
does not match every conforming prefix, refuting the claim. -/
theorem C9_counterexample_unicode_digit :
    float ("1٣".toList) = none
    ∧ TokParts ['1'] [] ∧ "1٣".toList = mkTok false ['1'] [] ++ ['٣'] := by
  refine ⟨by rfl, ?_, by rfl⟩
  refine ⟨by decide, by decide, by decide⟩

/-- C9 (amended): `Parser::float` computes the longest prefix of the shape
optional minus, one or more digits, optionally a dot with one or more
digits, where the digit class is the regex crate's Unicode `\d` (`\p{Nd}`);
the prefix is returned — parsed as a float, with the cursor past it — only
when all its digits are ASCII (otherwise `parse::<f64>` fails and there is
no match).  Specifically: a match decomposes the input into an ASCII-digit
token of maximal length among all `\p{Nd}`-shaped prefixes and the rest,
with the token's (exact; f64 rounding is not modelled) value; a no-match on
an input that starts with an ASCII-conforming token is always explained by
a `\p{Nd}`-shaped prefix containing a non-ASCII digit; a leading `+` never
matches; and on `-1.abc` the result is -1 with `.abc` left unconsumed. -/
theorem C9_float_longest_nd_prefix :
    (∀ s v r, float s = some (v, r) →
      ∃ sign ds fs, TokParts ds fs ∧ s = mkTok sign ds fs ++ r
        ∧ v = F64.fin sign (litVal ds fs)
        ∧ ∀ sign2 ds2 fs2 r2, NdParts ds2 fs2 → s = mkTok sign2 ds2 fs2 ++ r2 →
            (mkTok sign2 ds2 fs2).length ≤ (mkTok sign ds fs).length)
    ∧ (∀ s sign ds fs r, float s = none → TokParts ds fs → s = mkTok sign ds fs ++ r →
        ∃ sign2 ds2 fs2 r2, NdParts ds2 fs2 ∧ s = mkTok sign2 ds2 fs2 ++ r2
          ∧ (ds2.all Char.isDigit && fs2.all Char.isDigit) = false)
    ∧ (∀ rest, float ('+' :: rest) = none)
    ∧ float ("-1.abc".toList) = some (F64.fin true 1, ".abc".toList) := by
  refine ⟨?_, ?_, ?_, by rfl⟩
  · intro s v r h
    cases s with
    | nil => exact Option.noConfusion h
    | cons c rest =>
      by_cases hc : c = '-'
      · subst hc
        rw [float_minus] at h
        cases hfc : floatCore rest with
        | none => rw [hfc] at h; exact Option.noConfusion h
        | some qr =>
          obtain ⟨q, r1⟩ := qr
          rw [hfc] at h
          simp only [Option.map_some', Option.some.injEq, Prod.mk.injEq] at h
          obtain ⟨hv, hr⟩ := h
          subst hr
          obtain ⟨ds, fs, hp, hdecomp, hq, hlong⟩ := floatCore_some hfc
          refine ⟨true, ds, fs, hp, ?_, ?_, ?_⟩
          · simp only [mkTok, cond_true, List.cons_append, List.nil_append,
              List.append_assoc, List.cons.injEq, true_and]
            exact hdecomp
          · rw [← hv, hq]
          · intro sign2 ds2 fs2 r2 hp2 hs2
            cases sign2 with
            | true =>
              simp only [mkTok, cond_true, List.cons_append, List.nil_append,
                List.append_assoc, List.cons.injEq, true_and] at hs2 ⊢
              simp only [List.length_cons, List.length_append]
              have := hlong ds2 fs2 r2 hp2 hs2
              simp only [List.length_append] at this
              omega
            | false =>
              exfalso
              obtain ⟨hne2, hd2, _⟩ := hp2
              cases ds2 with
              | nil => exact hne2 rfl
              | cons d ds2t =>
                simp only [mkTok, cond_false, List.nil_append, List.cons_append,
                  List.cons.injEq] at hs2
                have hd : d = '-' := hs2.1.symm
                have hdig := hd2 d (by simp)
                rw [hd] at hdig
                exact absurd hdig (by decide)
      · rw [float_not_minus hc] at h
        cases hfc : floatCore (c :: rest) with
        | none => rw [hfc] at h; exact Option.noConfusion h
        | some qr =>
          obtain ⟨q, r1⟩ := qr
          rw [hfc] at h
          simp only [Option.map_some', Option.some.injEq, Prod.mk.injEq] at h
          obtain ⟨hv, hr⟩ := h
          subst hr
          obtain ⟨ds, fs, hp, hdecomp, hq, hlong⟩ := floatCore_some hfc
          refine ⟨false, ds, fs, hp, ?_, ?_, ?_⟩
          · simp only [mkTok, cond_false, List.nil_append, List.append_assoc]
            exact hdecomp
          · rw [← hv, hq]
          · intro sign2 ds2 fs2 r2 hp2 hs2
            cases sign2 with
            | true =>
              exfalso
              simp only [mkTok, cond_true, List.cons_append, List.nil_append,
                List.cons.injEq] at hs2
              exact hc hs2.1
            | false =>
              simp only [mkTok, cond_false, List.nil_append, List.append_assoc] at hs2 ⊢
              exact hlong ds2 fs2 r2 hp2 hs2
  · intro s sign ds fs r hnone hp hs
    cases sign with
    | true =>
      have hs2 : s = '-' :: (ds ++ (dotRep fs ++ r)) := by
        simpa [mkTok, List.append_assoc] using hs
      rw [hs2, float_minus] at hnone
      have hcnone : floatCore (ds ++ (dotRep fs ++ r)) = none := by
        cases hfc : floatCore (ds ++ (dotRep fs ++ r)) with
        | none => rfl
        | some qr => rw [hfc] at hnone; exact Option.noConfusion hnone
      obtain ⟨ds2, fs2, r2, hnd2, hdec2, hguard2⟩ :=
        floatCore_none_explained hp rfl hcnone
      refine ⟨true, ds2, fs2, r2, hnd2, ?_, hguard2⟩
      rw [hs2, hdec2]
      simp [mkTok, List.append_assoc]
    | false =>
      obtain ⟨hne, hdig, hfdig⟩ := hp
      cases ds with
      | nil => exact absurd rfl hne
      | cons d dst =>
        have hd : d.isDigit = true := hdig d (by simp)
        have hdm : d ≠ '-' := (isDigit_ne_aux hd).2.2.1
        have hs2 : s = d :: (dst ++ (dotRep fs ++ r)) := by
          simpa [mkTok, List.append_assoc] using hs
        rw [hs2, float_not_minus hdm] at hnone
        have hcnone : floatCore (d :: (dst ++ (dotRep fs ++ r))) = none := by
          cases hfc : floatCore (d :: (dst ++ (dotRep fs ++ r))) with
          | none => rfl
          | some qr => rw [hfc] at hnone; exact Option.noConfusion hnone
        have hshape : d :: (dst ++ (dotRep fs ++ r))
            = (d :: dst) ++ (dotRep fs ++ r) := by simp
        obtain ⟨ds2, fs2, r2, hnd2, hdec2, hguard2⟩ :=
          floatCore_none_explained ⟨hne, hdig, hfdig⟩ hshape hcnone
        refine ⟨false, ds2, fs2, r2, hnd2, ?_, hguard2⟩
        rw [hs2, hdec2]
        simp [mkTok, List.append_assoc]
  · intro rest
    have hplus : ('+' : Char) ≠ '-' := by decide
    rw [float_not_minus hplus]
    have htw : ('+' :: rest).takeWhile isNd = [] := by
      rw [List.takeWhile_cons_of_neg]
      decide
    simp [floatCore, htw]

/-- C9 witness: the amended match characterization applied at `12.5x`. -/
theorem C9_witness :
    ∃ sign ds fs, TokParts ds fs
      ∧ "12.5x".toList = mkTok sign ds fs ++ "x".toList
      ∧ F64.fin false (litVal ['1', '2'] ['5']) = F64.fin sign (litVal ds fs)
      ∧ ∀ sign2 ds2 fs2 r2, NdParts ds2 fs2 →
          "12.5x".toList = mkTok sign2 ds2 fs2 ++ r2 →
          (mkTok sign2 ds2 fs2).length ≤ (mkTok sign ds fs).length :=
  C9_float_longest_nd_prefix.1 ("12.5x".toList)
    (F64.fin false (litVal ['1', '2'] ['5'])) ("x".toList) (by rfl)

/-! ### Symbolic parsing of digit chains (for the associativity claim) -/

/-- ASCII digits occupy one UTF-8 byte, so `Parser::next` cannot panic on
them. -/
theorem utf8Size_of_isDigit {c : Char} (h : c.isDigit = true) : c.utf8Size = 1 := by
  simp only [Char.isDigit, Bool.and_eq_true, decide_eq_true_eq] at h
  simp only [Char.utf8Size]
  split
  · rfl
  · rename_i hgt
    refine absurd (UInt32.le_trans h.2 ?_) hgt
    decide

/-- `spaces` does not consume a non-space first character. -/
theorem spaces_of_ne_space {c : Char} {t : List Char} (hc : c ≠ ' ') :
    spaces (c :: t) = c :: t := by
  simp [spaces, hc]

/-- `Parser::next` on a digit-headed input returns the digit. -/
theorem pnext_digit {c : Char} {t : List Char} (h : c.isDigit = true) :
    pnext (c :: t) = .ret (some (c, t)) := by
  simp [pnext, utf8Size_of_isDigit h]

/-- `floatCore` on an ASCII digit run followed by a rest that neither
starts with a digit (of any script) nor with a dot matches exactly the
digit run. -/
theorem floatCore_digits {ds t : List Char} (hne : ds ≠ [])
    (hds : ∀ c ∈ ds, c.isDigit = true)
    (ht : t = [] ∨ ∃ c t2, t = c :: t2 ∧ isNd c = false ∧ c ≠ '.') :
    floatCore (ds ++ t) = some (litVal ds [], t) := by
  have hnd : ∀ c ∈ ds, isNd c = true := fun c hc => isNd_of_isDigit (hds c hc)
  have hall : ds.all Char.isDigit = true := List.all_eq_true.mpr hds
  have htw : (ds ++ t).takeWhile isNd = ds := by
    rw [List.takeWhile_append_of_pos hnd]
    rcases ht with rfl | ⟨c, t2, rfl, hcd, _⟩
    · simp
    · rw [List.takeWhile_cons_of_neg (by simp [hcd])]
      simp
  rcases ht with rfl | ⟨c, t2, rfl, hcd, hcdot⟩
  · simp only [floatCore, htw, if_neg hne, List.drop_left]
    simp [hall]
  · simp only [floatCore, htw, if_neg hne, List.drop_left]
    split
    · rename_i s3 heq
      injection heq with h1 _
      exact absurd h1 hcdot
    · simp [hall]

/-- `Parser::float` on a digit run followed by a non-digit, non-dot rest. -/
theorem float_digits {d : Char} {ds t : List Char} (hd : d.isDigit = true)
    (hds : ∀ c ∈ d :: ds, c.isDigit = true)
    (ht : t = [] ∨ ∃ c t2, t = c :: t2 ∧ isNd c = false ∧ c ≠ '.') :
    float ((d :: ds) ++ t) = some (F64.fin false (litVal (d :: ds) []), t) := by
  rw [List.cons_append, float_not_minus (isDigit_ne_aux hd).2.2.1, ← List.cons_append,
    floatCore_digits (by simp) hds ht]
  rfl

/-- `Parser::term` on a digit run followed by a non-digit, non-dot rest
reads the run as a float literal. -/
theorem term_digits (fuel : Nat) {d : Char} {ds t : List Char} (hd : d.isDigit = true)
    (hds : ∀ c ∈ d :: ds, c.isDigit = true)
    (ht : t = [] ∨ ∃ c t2, t = c :: t2 ∧ isNd c = false ∧ c ≠ '.') :
    term (fuel + 1) ((d :: ds) ++ t)
      = .ret (some (.Float (F64.fin false (litVal (d :: ds) [])), t)) := by
  have hpn : pnext ((d :: ds) ++ t) = .ret (some (d, ds ++ t)) := by
    rw [List.cons_append]
    exact pnext_digit hd
  simp only [term, hpn, if_neg (isDigit_ne_aux hd).2.1, float_digits hd hds ht]

/-- Symbolic run of `Parser::expr` on a chain `a-b-c` of numeral atoms:
the collected operator list is reduced to the left-associated tree
`(a-b)-c`. -/
theorem expr_digit_chain (f : Nat) (d1 d2 d3 : Char) (ds1 ds2 ds3 : List Char)
    (h1 : ∀ c ∈ d1 :: ds1, c.isDigit = true)
    (h2 : ∀ c ∈ d2 :: ds2, c.isDigit = true)
    (h3 : ∀ c ∈ d3 :: ds3, c.isDigit = true) :
    expr (f + 4) (d1 :: (ds1 ++ '-' :: (d2 :: (ds2 ++ '-' :: (d3 :: ds3)))))
      = .ret (.ok (Operation.new .Sub
          (Operation.new .Sub (.Float (F64.fin false (litVal (d1 :: ds1) [])))
            (.Float (F64.fin false (litVal (d2 :: ds2) []))))
          (.Float (F64.fin false (litVal (d3 :: ds3) []))), [])) := by
  have hd1 := h1 d1 (by simp)
  have hd2 := h2 d2 (by simp)
  have hd3 := h3 d3 (by simp)
  have hmb : isNd '-' = false := by decide
  have hmd : ('-' : Char) ≠ '.' := by decide
  have hterm1 : term (f + 3) (d1 :: (ds1 ++ '-' :: (d2 :: (ds2 ++ '-' :: (d3 :: ds3)))))
      = .ret (some (.Float (F64.fin false (litVal (d1 :: ds1) [])),
          '-' :: (d2 :: (ds2 ++ '-' :: (d3 :: ds3))))) :=
    term_digits (f + 2) hd1 h1 (Or.inr ⟨'-', _, rfl, hmb, hmd⟩)
  have hterm2 : term (f + 2) (d2 :: (ds2 ++ '-' :: (d3 :: ds3)))
      = .ret (some (.Float (F64.fin false (litVal (d2 :: ds2) [])), '-' :: (d3 :: ds3))) :=
    term_digits (f + 1) hd2 h2 (Or.inr ⟨'-', _, rfl, hmb, hmd⟩)
  have hterm3 : term (f + 1) (d3 :: ds3)
      = .ret (some (.Float (F64.fin false (litVal (d3 :: ds3) [])), [])) := by
    have := term_digits f hd3 h3 (Or.inl rfl)
    simpa using this
  have hsp1 : spaces (d1 :: (ds1 ++ '-' :: (d2 :: (ds2 ++ '-' :: (d3 :: ds3)))))
      = d1 :: (ds1 ++ '-' :: (d2 :: (ds2 ++ '-' :: (d3 :: ds3)))) :=
    spaces_of_ne_space (isDigit_ne_aux hd1).1
  have hsp2 : spaces (d2 :: (ds2 ++ '-' :: (d3 :: ds3))) = d2 :: (ds2 ++ '-' :: (d3 :: ds3)) :=
    spaces_of_ne_space (isDigit_ne_aux hd2).1
  have hsp3 : spaces (d3 :: ds3) = d3 :: ds3 :=
    spaces_of_ne_space (isDigit_ne_aux hd3).1
  have hspm : ∀ X : List Char, spaces ('-' :: X) = '-' :: X :=
    fun X => spaces_of_ne_space (by decide)
  have hpnm : ∀ X : List Char, pnext ('-' :: X) = .ret (some ('-', X)) := fun X => rfl
  have hpn0 : pnext ([] : List Char) = .ret none := rfl
  have hsp0 : spaces ([] : List Char) = [] := rfl
  have hcop : charToOp '-' = some Operator.Sub := rfl
  simp only [expr, exprLoop, hsp1, hsp2, hsp3, hspm, hpnm, hpn0, hsp0, hcop,
    hterm1, hterm2, hterm3, List.nil_append, List.cons_append]
  rfl


/-! ### Claim theorems -/

/-- C1: the claim says `parse` never panics or aborts for any input, including
non-ASCII input.  The code violates this: on the single-character non-ASCII
input `é`, `Parser::next` reads the character but advances with the byte
slice `&self.0[1..]`, and byte index 1 is inside the two-byte character, so
the slice panics.  This theorem evaluates the embedded parser at that
failing input. -/
theorem C1_parse_panics_on_non_ascii :
    parse_line ("é".toList) = Ret.panicked := by rfl

/-- C2: the claim (and the `cli_syntax_error` test in src/cli.rs, which
expects the message `invalid term: "*"`) says that parsing `1+*` fails with
an invalid-term error referencing `*`.  The code instead stops the operator
loop and reports the unconsumed-suffix error naming `"+*"` (for the test's
input `1 + *`, naming `"+ *"`). -/
theorem C2_error_is_unconsumed_suffix :
    parse_line ("1+*".toList)
      = Ret.ret (Res.err "could not parse the end of the imput, namely: \"+*\"")
    ∧ parse_line ("1 + *".toList)
      = Ret.ret (Res.err "could not parse the end of the imput, namely: \"+ *\"")
    ∧ "could not parse the end of the imput, namely: \"+*\"" ≠ "invalid term" := by
  refine ⟨by rfl, by rfl, by decide⟩

/-- C3: operator precedence is applied and parentheses override it:
`1+2*3` evaluates to 7, `1*2+3` to 5, `(1+2)*3` to 9, and the precedence
values make Mul and Div bind tighter (lower value) than Add and Sub. -/
theorem C3_precedence_and_parens :
    parseEval ("1+2*3".toList) = Ret.ret (Res.ok (F64.fin false 7))
    ∧ parseEval ("1*2+3".toList) = Ret.ret (Res.ok (F64.fin false 5))
    ∧ parseEval ("(1+2)*3".toList) = Ret.ret (Res.ok (F64.fin false 9))
    ∧ Operator.Mul.precedence < Operator.Add.precedence
    ∧ Operator.Div.precedence < Operator.Sub.precedence := by
  refine ⟨by rfl, by rfl, by rfl, by decide, by decide⟩

/-- C4: chains of equal-precedence operators group left-to-right: every
chain `a-b-c` of numeral atoms parses to the tree `(a-b)-c`, and `1-2-3`
evaluates to -4. -/
theorem C4_sub_chain_left_assoc :
    (∀ ds1 ds2 ds3 : List Char,
        ds1 ≠ [] → ds2 ≠ [] → ds3 ≠ [] →
        (∀ c ∈ ds1 ++ ds2 ++ ds3, c.isDigit = true) →
        parse_line (ds1 ++ '-' :: (ds2 ++ '-' :: ds3))
          = Ret.ret (Res.ok (Operation.new .Sub
              (Operation.new .Sub (Expr.Float (F64.fin false (litVal ds1 [])))
                (Expr.Float (F64.fin false (litVal ds2 []))))
              (Expr.Float (F64.fin false (litVal ds3 []))))))
    ∧ parseEval ("1-2-3".toList) = Ret.ret (Res.ok (F64.fin true 4)) := by
  refine ⟨?_, by rfl⟩
  intro ds1 ds2 ds3 hne1 hne2 hne3 hdig
  match ds1, hne1, ds2, hne2, ds3, hne3 with
  | d1 :: ds1, _, d2 :: ds2, _, d3 :: ds3, _ =>
    have h1 : ∀ c ∈ d1 :: ds1, c.isDigit = true := fun c hc =>
      hdig c (List.mem_append.2 (Or.inl (List.mem_append.2 (Or.inl hc))))
    have h2 : ∀ c ∈ d2 :: ds2, c.isDigit = true := fun c hc =>
      hdig c (List.mem_append.2 (Or.inl (List.mem_append.2 (Or.inr hc))))
    have h3 : ∀ c ∈ d3 :: ds3, c.isDigit = true := fun c hc =>
      hdig c (List.mem_append.2 (Or.inr hc))
    have hL : (d1 :: (ds1 ++ '-' :: (d2 :: (ds2 ++ '-' :: (d3 :: ds3))))).length
        = (ds1 ++ '-' :: (d2 :: (ds2 ++ '-' :: (d3 :: ds3)))).length + 1 := rfl
    obtain ⟨f, hf⟩ : ∃ f,
        3 * ((d1 :: (ds1 ++ '-' :: (d2 :: (ds2 ++ '-' :: (d3 :: ds3))))).length + 1)
          = f + 4 :=
      ⟨3 * ((d1 :: (ds1 ++ '-' :: (d2 :: (ds2 ++ '-' :: (d3 :: ds3))))).length + 1) - 4,
       by omega⟩
    show parse_line (d1 :: (ds1 ++ '-' :: (d2 :: (ds2 ++ '-' :: (d3 :: ds3))))) = _
    simp only [parse_line, hf, expr_digit_chain f d1 d2 d3 ds1 ds2 ds3 h1 h2 h3]
    rfl

/-- C4 witness: the chain theorem applied at `1-2-3`. -/
theorem C4_witness :
    parse_line ("1-2-3".toList)
      = Ret.ret (Res.ok (Operation.new .Sub
          (Operation.new .Sub (Expr.Float (F64.fin false (litVal ['1'] [])))
            (Expr.Float (F64.fin false (litVal ['2'] []))))
          (Expr.Float (F64.fin false (litVal ['3'] []))))) :=
  C4_sub_chain_left_assoc.1 ['1'] ['2'] ['3'] (by decide) (by decide) (by decide) (by decide)

/-- C5: division by zero follows IEEE-754 semantics and is not an error:
dividing 1 by positive zero evaluates to positive infinity, dividing 1 by
negative zero evaluates to negative infinity, and dividing 0 by 0 evaluates
to NaN, all returned as ordinary `Ok` numeric results. -/
theorem C5_division_by_zero :
    parseEval ("1/0".toList) = Ret.ret (Res.ok (F64.inf false))
    ∧ parseEval ("1/-0".toList) = Ret.ret (Res.ok (F64.inf true))
    ∧ parseEval ("0/0".toList) = Ret.ret (Res.ok F64.nan) := by
  refine ⟨by rfl, by rfl, by rfl⟩

/-- C7 counterexample: the claim says an unmatched `(` yields an
UnclosedParenthesis-kind error distinct from the InvalidTerm kind; the code
has no such error kind: on `(1+2` the missing `)` makes `Parser::term`
return `None` and the parse fails with exactly the InvalidTerm message
`invalid term`. -/
theorem C7_counterexample_unclosed_paren_is_invalid_term :
    parse_line ("(1+2".toList) = Ret.ret (Res.err "invalid term") := by rfl

/-- C7 (amended): an unmatched opening parenthesis makes the parse fail, but
with the InvalidTerm-kind error `invalid term` (the parenthesis branch of
`Parser::term` converts the failure into a failed term); no distinct
unclosed-parenthesis error kind exists in the code. -/
theorem C7_unclosed_paren_fails_as_invalid_term :
    parse_line ("(1".toList) = Ret.ret (Res.err "invalid term")
    ∧ parse_line ("(1+2)".toList)
      = Ret.ret (Res.ok (Operation.new .Add (Expr.Float (F64.fin false 1)) (Expr.Float (F64.fin false 2))))
    ∧ parse_line ("((1+2".toList) = Ret.ret (Res.err "invalid term") := by
  refine ⟨by rfl, by rfl, by rfl⟩

/-- C10: because the literal matcher consumes a leading `-`, the input
`1--2` is not a syntax error: it parses as `Sub(Float(1), Float(-2))` and
evaluates to 3. -/
theorem C10_double_minus_parses :
    parse_line ("1--2".toList)
      = Ret.ret (Res.ok (Operation.new .Sub (Expr.Float (F64.fin false 1)) (Expr.Float (F64.fin true 2))))
    ∧ parseEval ("1--2".toList) = Ret.ret (Res.ok (F64.fin false 3)) := by
  refine ⟨by rfl, by rfl⟩


/-- C6: evaluation is deterministic (it is a pure function) and total on
every tree returned by a successful parse: it returns `Ok` with a float
value, never an error and never a panic (in particular the `reduce` over the
children values, which panics on an empty sequence, is never applied to an
empty one). -/
theorem C6_evaluate_total_on_parsed (line : List Char) (e : Expr)
    (h : parse_line line = Ret.ret (Res.ok e)) :
    ∃ v, e.evaluate = Ret.ret (Res.ok v) :=
  evaluate_total_of_minArity2 e (parsed_minArity2 h)

/-- C6 witness: the tree parsed from `1+2` evaluates to an `Ok` value. -/
theorem C6_witness :
    ∃ v, (Operation.new .Add (Expr.Float (F64.fin false 1))
      (Expr.Float (F64.fin false 2))).evaluate = Ret.ret (Res.ok v) :=
  C6_evaluate_total_on_parsed ("1+2".toList) _ (by rfl)

/-- C8: every operator node in a tree returned by a successful parse has at
least two children, and evaluation folds the children values left-to-right:
a node whose parameters evaluate to `v :: vs` evaluates to
`vs.foldl op.apply v`, that is `(((v op v1) op v2) op ...)`. -/
theorem C8_two_children_and_left_fold :
    (∀ line e, parse_line line = Ret.ret (Res.ok e) → minArity2 e = true)
    ∧ (∀ (op : Operator) (ps : ExprList) (v : F64) (vs : List F64),
        evaluate_params ps = Ret.ret (Res.ok (v :: vs)) →
        (Expr.Op op ps).evaluate = Ret.ret (Res.ok (vs.foldl op.apply v))) := by
  constructor
  · intro line e h
    exact parsed_minArity2 h
  · intro op ps v vs h
    simp [Expr.evaluate, h, reduceF64]

/-- C8 witness: the tree parsed from `1+2` has at least two children at its
node, and a three-child Sub node folds left-to-right. -/
theorem C8_witness :
    minArity2 (Operation.new .Add (Expr.Float (F64.fin false 1))
      (Expr.Float (F64.fin false 2))) = true
    ∧ (Expr.Op .Sub (.cons (Expr.Float (F64.fin false 1))
        (.cons (Expr.Float (F64.fin false 2))
          (.cons (Expr.Float (F64.fin false 3)) .nil)))).evaluate
      = Ret.ret (Res.ok ([F64.fin false 2, F64.fin false 3].foldl
          Operator.Sub.apply (F64.fin false 1))) :=
  ⟨C8_two_children_and_left_fold.1 ("1+2".toList) _ (by rfl),
   C8_two_children_and_left_fold.2 .Sub _ _ _ (by rfl)⟩

end Calculator
